import Mathlib

/-!
Verification of the statistical computation core of the `hypothetical` /
`hypy` hypothesis-testing library.

The numeric procedures of `src/hypothetical/hypothesis.py`,
`src/hypothetical/nonparametric.py` and `src/hypy/nonparametric.py` are
shallowly embedded over `ℚ` (exact rational arithmetic standing for the
floating-point arithmetic of the source).  External math-library calls
(`scipy.stats.rankdata`, `norm.ppf`, `np.sqrt`, `t.cdf`) are either modelled
from their documented semantics or passed in as value parameters constrained
by hypotheses.  IEEE results that are not finite numbers (NaN from division
by zero or from the square root of a negative number) are modelled by
`Option.none`.

The file lists all definitions first, then all theorems.
-/

namespace Hypothetical

/-! Definitions: the rank utility -/

/-- Number of entries of `l` strictly below `x`. -/
def countLT (l : List ℚ) (x : ℚ) : ℕ := (l.filter (fun y => y < x)).length

/-- Number of entries of `l` equal to `x`. -/
def countEQ (l : List ℚ) (x : ℚ) : ℕ := (l.filter (fun y => y = x)).length

/-- Number of entries of `l` strictly above `x`. -/
def countGT (l : List ℚ) (x : ℚ) : ℕ := (l.filter (fun y => x < y)).length

/-- Modelled from the spec: the average rank (§4.1) that
`scipy.stats.rankdata(a, 'average')` assigns to the value `x` within the
reference vector `l` (the rank utility used by `KruskalWallis._rank`,
`MannWhitney._rank` and `WilcoxonTest.v_statistic`; `rankdata` itself is
scipy library code, not part of this repository).  A group of `t` equal
values preceded by `c` strictly smaller values occupies the ordinal ranks
`c+1, …, c+t`, whose arithmetic mean is `c + (t+1)/2`. -/
def avgRank (l : List ℚ) (x : ℚ) : ℚ :=
  (countLT l x : ℚ) + ((countEQ l x : ℚ) + 1) / 2

/-- Modelled from the spec: `scipy.stats.rankdata(l, 'average')`, the
average-rank vector of `l` (§4.1). -/
def rankdata (l : List ℚ) : List ℚ := l.map (avgRank l)

/-! Definitions: WilcoxonTest (`src/hypothetical/nonparametric.py`
`v_statistic`; `src/hypy/nonparametric.py` `_one_sample_test`) -/

/-- The signed differences used by `WilcoxonTest`: `y1 - y2` elementwise
when paired (`WilcoxonTest.__init__`), else `y1 - mu` (`v_statistic` /
`_one_sample_test`). -/
def wilcoxon_signed (paired : Bool) (y1 y2 : List ℚ) (mu : ℚ) : List ℚ :=
  if paired then List.zipWith (fun a b => a - b) y1 y2
  else y1.map (fun a => a - mu)

/-- Embeds `WilcoxonTest.v_statistic` (and the identical `hypy`
`WilcoxonTest._one_sample_test`): ranks the signed vector and its absolute
values, builds the indicator `np.where(ranks_signed > 0, 1, 0)`, and sums
the elementwise product of the unsigned ranks with that indicator. -/
def v_statistic (signed : List ℚ) : ℚ :=
  (List.zipWith (fun a b => a * b)
    (rankdata (signed.map (fun v => |v|)))
    ((rankdata signed).map (fun r => if 0 < r then (1 : ℚ) else 0))).sum

/-- Definition following the spec's words (§4.9), for comparison with
`v_statistic`: the sum of the average ranks of the absolute differences
taken over exactly those indices whose signed difference is positive. -/
def v_statistic_spec (signed : List ℚ) : ℚ :=
  (List.zipWith (fun r s => if 0 < s then r else 0)
    (rankdata (signed.map (fun v => |v|))) signed).sum

/-! Definitions: MannWhitney (`src/hypothetical/nonparametric.py` `u`;
`src/hypy/nonparametric.py` `_u`) -/

/-- Embeds `MannWhitney._rank`: average ranks of the concatenation of the
two samples, truncated to the first sample (`ranks[:self.n1]`). -/
def mw_ranks (y1 y2 : List ℚ) : List ℚ :=
  (rankdata (y1 ++ y2)).take y1.length

/-- Embeds the first statistic of `MannWhitney.u`:
`u1 = n1*n2 + n1(n1+1)/2 - sum(ranks)`. -/
def mw_u1 (y1 y2 : List ℚ) : ℚ :=
  (y1.length : ℚ) * y2.length + ((y1.length : ℚ) * (y1.length + 1)) / 2
    - (mw_ranks y1 y2).sum

/-- Embeds `MannWhitney.u`: the reported U statistic
`min(u1, n1*n2 - u1)`. -/
def mw_u (y1 y2 : List ℚ) : ℚ :=
  min (mw_u1 y1 y2) ((y1.length : ℚ) * y2.length - mw_u1 y1 y2)

/-! Definitions: tie_correction (`src/hypothetical/nonparametric.py`) -/

/-- The multiplicities of the distinct values of `l`:
`np.unique(rank_array, return_counts=True)[1]` (as a multiset of counts;
numpy returns them sorted by value, which no consumer relies on). -/
def tieGroupSizes (l : List ℚ) : List ℕ := l.dedup.map (fun v => l.count v)

/-- Embeds `tie_correction`: `1 - Σ(t³ - t) / (N³ - N)` over the tie-group
sizes `t > 1`.  When the denominator `N³ - N` is zero numpy's division
yields NaN (no exception is raised); the absence of a numeric result is
modelled by `none`. -/
def tie_correction (rank_array : List ℚ) : Option ℚ :=
  if ((rank_array.length : ℚ) ^ 3 - rank_array.length) = 0 then none
  else some (1 -
    ((((tieGroupSizes rank_array).filter (fun t => 1 < t)).map
      (fun t => (t : ℚ) ^ 3 - t)).sum)
    / ((rank_array.length : ℚ) ^ 3 - rank_array.length))

/-! Definitions: BinomialTest (`src/hypothetical/hypothesis.py`) -/

/-- The alternative-hypothesis tag.  `BinomialTest` enumerates
`('two-sided', 'greater', 'lesser')`, `tTest` enumerates
`('two-sided', 'greater', 'less')`; both are covered by one tag type. -/
inductive Alt where
  | two_sided
  | greater
  | less
deriving DecidableEq

/-- The binomial probability mass function
`comb(n, k) * p**k * q**(n-k)` with `q = 1 - p` (`BinomialTest.__init__`
stores `q = 1 - p`). -/
def binom_pmf (n k : ℕ) (p : ℚ) : ℚ :=
  (n.choose k : ℚ) * p ^ k * (1 - p) ^ (n - k)

/-- Embeds `BinomialTest._p_value`: sums the pmf over
`successes = np.arange(x+1)`; for the two-sided alternative additionally
sums, over `other_tail = np.arange(x+1, n+1)`, the pmf values that are
`<= y`, the pmf at `x` (`p_othertail[p_othertail <= y]`). -/
def binomial_p_value (n x : ℕ) (p : ℚ) (alternative : Alt) : ℚ :=
  let q := 1 - p
  let pval := ((List.range (x + 1)).map
    (fun k => (n.choose k : ℚ) * p ^ k * q ^ (n - k))).sum
  match alternative with
  | Alt.two_sided =>
    let y := (n.choose x : ℚ) * p ^ x * q ^ (n - x)
    let p_othertail := (List.range' (x + 1) (n - x)).map
      (fun k => (n.choose k : ℚ) * p ^ k * q ^ (n - k))
    pval + (p_othertail.filter (fun v => v ≤ y)).sum
  | Alt.greater => pval
  | Alt.less => pval

/-! Definitions: tTest (`src/hypothetical/hypothesis.py`) -/

/-- The IEEE double machine epsilon `2⁻⁵²`, `np.finfo(float).eps`. -/
def machineEps : ℚ := 1 / 2 ^ 52

/-- Embeds `tTest._pvalue` as a function of the externally computed
`t.cdf(t_statistic, parameter)` value: double for two-sided, complement for
`greater`; wrap `p ↦ 2 - p` when `1 < p < 2`; substitute machine epsilon
when `p == 2.0`. -/
def tTest_pvalue (cdf_val : ℚ) (alternative : Alt) : ℚ :=
  let p1 :=
    match alternative with
    | Alt.two_sided => cdf_val * 2
    | Alt.greater => 1 - cdf_val
    | Alt.less => cdf_val
  let p2 := if 1 < p1 ∧ p1 < 2 then 2 - p1 else p1
  if p2 = 2 then machineEps else p2

/-- Embeds the mean of `tTest._sample_stats`: `np.mean`. -/
def sample_mean (l : List ℚ) : ℚ := l.sum / l.length

/-- Embeds the variance of `tTest._sample_stats`: `np.var`, the population
variance (divide by `n`). -/
def sample_variance (l : List ℚ) : ℚ :=
  (l.map (fun x => (x - sample_mean l) ^ 2)).sum / l.length

/-- Embeds `tTest._paired`: elementwise difference
`np.array(y1) - np.array(y2)`, after the equal-length validation (`none`
models the raised ValueError). -/
def tTest_paired_diffs (y1 y2 : List ℚ) : Option (List ℚ) :=
  if y1.length = y2.length then
    some (List.zipWith (fun a b => a - b) y1 y2)
  else none

/-- Models `np.sqrt` restricted to exactly representable results: `some r`
when `q ≥ 0` has the rational square root `r`, `none` when the IEEE result
is irrational or NaN (negative argument).  Only the exactly-representable
cases are consumed below. -/
def sqrtQ (q : ℚ) : Option ℚ :=
  if q < 0 then none
  else
    if Nat.sqrt q.num.natAbs * Nat.sqrt q.num.natAbs = q.num.natAbs
        ∧ Nat.sqrt q.den * Nat.sqrt q.den = q.den then
      some ((Nat.sqrt q.num.natAbs : ℚ) / (Nat.sqrt q.den : ℚ))
    else none

/-- Embeds `tTest._test_statistic`, paired/one-sample branch:
`(ybar1 - mu) / np.sqrt(s1 / n1)` over the paired differences, with
`mu = 0.0` (`self.mu is None` in the paired design).  A zero divisor makes
the IEEE quotient NaN (0/0) or ±inf, never a finite statistic: modelled by
`none`. -/
def tTest_paired_statistic (y1 y2 : List ℚ) : Option ℚ :=
  match tTest_paired_diffs y1 y2 with
  | none => none
  | some d =>
    match sqrtQ (sample_variance d / d.length) with
    | none => none
    | some r => if r = 0 then none else some ((sample_mean d - 0) / r)

/-! Definitions: ChiSquareTest (`src/hypothetical/hypothesis.py`) -/

/-- The C-style cast of a real value to an integer used by numpy when a
float fill value is written into an integer array: truncation toward
zero. -/
def truncQ (q : ℚ) : ℤ := if 0 ≤ q then ⌊q⌋ else -⌊-q⌋

/-- Models `np.mean` of an integer vector (the mean itself is computed in
floating point regardless of the input dtype). -/
def mean_int (l : List ℤ) : ℚ := ((l.sum : ℚ)) / l.length

/-- Embeds the `ChiSquareTest.__init__` default expected vector for an
*integer-dtyped* observed vector:
`np.full_like(observed, np.mean(observed))` keeps the integer dtype of
`observed`, so the float mean is truncated toward zero before being
replicated. -/
def chisq_expected_default_int (observed : List ℤ) : List ℤ :=
  List.replicate observed.length (truncQ (mean_int observed))

/-- Embeds the `ChiSquareTest.__init__` default expected vector for a
*float-dtyped* observed vector: every cell is the mean itself. -/
def chisq_expected_default_float (observed : List ℚ) : List ℚ :=
  List.replicate observed.length (sample_mean observed)

/-! Definitions: Wilson score interval
(`BinomialTest._wilson_score_interval`) -/

/-- The Wilson interval returned by `_wilson_score_interval`: point
estimate, lower bound, upper bound (the keys of the returned dict). -/
structure WilsonInterval where
  point : ℚ
  lower_bound : ℚ
  upper_bound : ℚ
deriving DecidableEq

/-- The point estimate `(p + z²/(2n)) / (1 + z²/n)`.  Note it is computed
from the *null* probability `self.p`, not from `x/n`. -/
def wilson_point (n : ℕ) (p z : ℚ) : ℚ :=
  (p + z ^ 2 / (2 * (n : ℚ))) / (1 + z ^ 2 / (n : ℚ))

/-- Non-continuity branch, lower bound: `p̃ - bound` where
`bound = (z/(1+z²/n))·√(pq/n + z²/(4n²))`; `s` stands for the value of that
square root. -/
def wilson_noCC_lower (n : ℕ) (p z s : ℚ) : ℚ :=
  wilson_point n p z - (z / (1 + z ^ 2 / (n : ℚ))) * s

/-- Non-continuity branch, upper bound `p̃ + bound`. -/
def wilson_noCC_upper (n : ℕ) (p z s : ℚ) : ℚ :=
  wilson_point n p z + (z / (1 + z ^ 2 / (n : ℚ))) * s

/-- Continuity-corrected branch, lower bound
`max(0, (2np + z² - z·s) / (2(n + z²)))`, where `s` stands for
`np.sqrt(z² - 1/n + 4npq + (4p - 2) + 1)`. -/
def wilson_CC_lower (n : ℕ) (p z s : ℚ) : ℚ :=
  max 0 ((2 * (n : ℚ) * p + z ^ 2 - z * s) / (2 * ((n : ℚ) + z ^ 2)))

/-- Continuity-corrected branch, upper bound
`min(1, (2np + z² + z·s) / (2(n + z²)))`. -/
def wilson_CC_upper (n : ℕ) (p z s : ℚ) : ℚ :=
  min 1 ((2 * (n : ℚ) * p + z ^ 2 + z * s) / (2 * ((n : ℚ) + z ^ 2)))

/-- Embeds `BinomialTest._wilson_score_interval`: selects the algebraic
variant by the continuity flag.  `z` is the externally computed
`norm.ppf(1 - alpha/2)` and `s` the externally computed `np.sqrt` value of
the variant's radicand (both depend only on `n`, `p`, `z` and the flag). -/
def wilson_score_interval (n : ℕ) (p z : ℚ) (continuity : Bool) (s : ℚ) :
    WilsonInterval :=
  if continuity then
    { point := wilson_point n p z
      lower_bound := wilson_CC_lower n p z s
      upper_bound := wilson_CC_upper n p z s }
  else
    { point := wilson_point n p z
      lower_bound := wilson_noCC_lower n p z s
      upper_bound := wilson_noCC_upper n p z s }

/-- The radicand of the continuity-corrected branch's square root,
`z² - 1/n + 4npq + (4p - 2) + 1` (identical for lower and upper bound). -/
def wilson_CC_radicand (n : ℕ) (p z : ℚ) : ℚ :=
  z ^ 2 - 1 / (n : ℚ) + 4 * (n : ℚ) * p * (1 - p) + (4 * p - 2) + 1

/-- The radicand of the non-continuity branch's square root,
`pq/n + z²/(4n²)`. -/
def wilson_noCC_radicand (n : ℕ) (p z : ℚ) : ℚ :=
  p * (1 - p) / (n : ℚ) + z ^ 2 / (4 * (n : ℚ) ^ 2)

/-- NaN-aware form of `_wilson_score_interval`: when the selected variant's
radicand is negative, `np.sqrt` returns NaN, the bound arithmetic propagates
it, and `np.maximum(0.0, ·)` / `np.minimum(1.0, ·)` also propagate NaN, so
the returned dict carries no numeric bounds (the point estimate alone stays
numeric): modelled by `none`.  Otherwise the interval is
`wilson_score_interval` with `s` the square-root value. -/
def wilson_score_interval_chk (n : ℕ) (p z : ℚ) (continuity : Bool)
    (s : ℚ) : Option WilsonInterval :=
  if (if continuity then wilson_CC_radicand n p z
      else wilson_noCC_radicand n p z) < 0 then none
  else some (wilson_score_interval n p z continuity s)

/-- The fields of a constructed `BinomialTest` relevant here: the validated
inputs, the exact p-value (which reads `x`) and the Wilson score interval.
`z` abbreviates the externally computed `norm.ppf(1 - alpha/2)` (equal
`alpha` gives equal `z`) and `s` the externally computed `np.sqrt` value of
the Wilson radicand, which depends only on `n`, `p`, `z` and the continuity
flag.  The Clopper-Pearson, Agresti-Coull and arcsine intervals need
further external oracle values (`beta.ppf`, more square roots) and are not
read by the Wilson computation, so they are elided. -/
structure BinomialTestResult where
  n : ℕ
  x : ℕ
  p : ℚ
  q : ℚ
  p_value : ℚ
  z : ℚ
  wilson : WilsonInterval
deriving DecidableEq

/-- Embeds `BinomialTest.__init__`: validates `x ≤ n` and `p ≤ 1` (`none`
models the raised ValueError), stores `q = 1 - p`, computes the exact
p-value and the Wilson score interval. -/
def mkBinomialTest (n x : ℕ) (p : ℚ) (alternative : Alt) (z s : ℚ)
    (continuity : Bool) : Option BinomialTestResult :=
  if x > n ∨ p > 1 then none
  else some
    { n := n
      x := x
      p := p
      q := 1 - p
      p_value := binomial_p_value n x p alternative
      z := z
      wilson := wilson_score_interval n p z continuity s }

/-! Theorems: the rank-sum invariant (C2) -/

theorem countLT_cons (a : ℚ) (t : List ℚ) (x : ℚ) :
    countLT (a :: t) x = countLT t x + (if a < x then 1 else 0) := by
  by_cases h : a < x <;> simp [countLT, List.filter_cons, h]

theorem countEQ_cons (a : ℚ) (t : List ℚ) (x : ℚ) :
    countEQ (a :: t) x = countEQ t x + (if a = x then 1 else 0) := by
  by_cases h : a = x <;> simp [countEQ, List.filter_cons, h]

theorem countGT_cons (a : ℚ) (t : List ℚ) (x : ℚ) :
    countGT (a :: t) x = countGT t x + (if x < a then 1 else 0) := by
  by_cases h : x < a <;> simp [countGT, List.filter_cons, h]

/-- Each entry of the reference vector is counted exactly once among the
below / equal / above counts. -/
theorem count_trichotomy (l : List ℚ) (x : ℚ) :
    countLT l x + countEQ l x + countGT l x = l.length := by
  induction l with
  | nil => simp [countLT, countEQ, countGT]
  | cons a t ih =>
    rw [countLT_cons, countEQ_cons, countGT_cons, List.length_cons]
    rcases lt_trichotomy a x with h | h | h
    · rw [if_pos h, if_neg (fun he => absurd he (ne_of_lt h)),
        if_neg (not_lt.mpr (le_of_lt h))]
      omega
    · rw [if_neg (by simp [h]), if_pos h, if_neg (by simp [h])]
      omega
    · rw [if_neg (not_lt.mpr (le_of_lt h)),
        if_neg (fun he => absurd he (ne_of_gt h)), if_pos h]
      omega

theorem nsum_map_add (f g : ℚ → ℕ) (l : List ℚ) :
    (l.map (fun x => f x + g x)).sum = (l.map f).sum + (l.map g).sum := by
  induction l with
  | nil => rfl
  | cons a t ih => simp [ih]; omega

theorem nsum_map_const (c : ℕ) (l : List ℚ) :
    (l.map (fun _ => c)).sum = l.length * c := by
  induction l with
  | nil => simp
  | cons a t ih => simp [ih]; ring

theorem sum_indicator_lt (t : List ℚ) (a : ℚ) :
    ((t.map (fun x => if a < x then (1 : ℕ) else 0)).sum) = countGT t a := by
  induction t with
  | nil => simp [countGT]
  | cons b s ih =>
    rw [List.map_cons, List.sum_cons, ih, countGT_cons]
    omega

theorem sum_indicator_gt (t : List ℚ) (a : ℚ) :
    ((t.map (fun x => if x < a then (1 : ℕ) else 0)).sum) = countLT t a := by
  induction t with
  | nil => simp [countLT]
  | cons b s ih =>
    rw [List.map_cons, List.sum_cons, ih, countLT_cons]
    omega

/-- Double counting: summing, over the entries of `l`, the number of
entries below each equals summing the number of entries above each. -/
theorem sum_countLT_eq_sum_countGT (l : List ℚ) :
    (l.map (countLT l)).sum = (l.map (countGT l)).sum := by
  induction l with
  | nil => rfl
  | cons a t ih =>
    rw [List.map_cons, List.sum_cons, List.map_cons, List.sum_cons]
    have hLT : (t.map (countLT (a :: t))).sum
        = (t.map (countLT t)).sum + countGT t a := by
      have hc : t.map (countLT (a :: t))
          = t.map (fun x => countLT t x + (if a < x then 1 else 0)) :=
        List.map_congr_left (fun x _ => countLT_cons a t x)
      rw [hc, nsum_map_add (countLT t) (fun x => if a < x then 1 else 0) t,
        sum_indicator_lt t a]
    have hGT : (t.map (countGT (a :: t))).sum
        = (t.map (countGT t)).sum + countLT t a := by
      have hc : t.map (countGT (a :: t))
          = t.map (fun x => countGT t x + (if x < a then 1 else 0)) :=
        List.map_congr_left (fun x _ => countGT_cons a t x)
      rw [hc, nsum_map_add (countGT t) (fun x => if x < a then 1 else 0) t,
        sum_indicator_gt t a]
    rw [hLT, hGT, countLT_cons a t a, countGT_cons a t a]
    simp only [lt_self_iff_false, if_false]
    omega

theorem cast_list_sum (f : ℚ → ℕ) (l : List ℚ) :
    ((l.map f).sum : ℚ) = (l.map (fun x => (f x : ℚ))).sum := by
  induction l with
  | nil => simp
  | cons a t ih => simp [ih]

theorem qsum_map_add (f g : ℚ → ℚ) (l : List ℚ) :
    (l.map (fun x => f x + g x)).sum = (l.map f).sum + (l.map g).sum := by
  induction l with
  | nil => simp
  | cons a t ih => simp [ih]; ring

theorem qsum_map_div (f : ℚ → ℚ) (c : ℚ) (l : List ℚ) :
    (l.map (fun x => f x / c)).sum = (l.map f).sum / c := by
  induction l with
  | nil => simp
  | cons a t ih => simp [ih]; ring

theorem qsum_map_const (c : ℚ) (l : List ℚ) :
    (l.map (fun _ => c)).sum = l.length * c := by
  induction l with
  | nil => simp
  | cons a t ih => simp [ih]; ring

/-- C2 — For every numeric vector, the average ranks produced by the rank
utility (ties resolved by mean rank) sum to exactly `n(n+1)/2` where `n` is
the vector length, regardless of how many ties the input contains. -/
theorem rankdata_sum (l : List ℚ) :
    (rankdata l).sum = (l.length : ℚ) * (l.length + 1) / 2 := by
  have key : 2 * (l.map (countLT l)).sum + (l.map (countEQ l)).sum
      = l.length * l.length := by
    have htri : (l.map (fun x => countLT l x + countEQ l x + countGT l x)).sum
        = (l.map (fun _ : ℚ => l.length)).sum :=
      congrArg List.sum
        (List.map_congr_left (fun x _ => count_trichotomy l x))
    have hsplit :
        (l.map (fun x => countLT l x + countEQ l x + countGT l x)).sum
        = (l.map (countLT l)).sum + (l.map (countEQ l)).sum
          + (l.map (countGT l)).sum := by
      rw [nsum_map_add (fun x => countLT l x + countEQ l x) (countGT l) l,
        nsum_map_add (countLT l) (countEQ l) l]
    have hconst := nsum_map_const l.length l
    have hsym := sum_countLT_eq_sum_countGT l
    omega
  have keyQ : 2 * ((l.map (countLT l)).sum : ℚ)
      + ((l.map (countEQ l)).sum : ℚ)
      = (l.length : ℚ) * (l.length : ℚ) := by
    exact_mod_cast congrArg (Nat.cast (R := ℚ)) key
  have expand : (rankdata l).sum
      = ((l.map (countLT l)).sum : ℚ)
        + (((l.map (countEQ l)).sum : ℚ) + l.length) / 2 := by
    have h1 : rankdata l
        = l.map (fun x => (countLT l x : ℚ) + ((countEQ l x : ℚ) + 1) / 2) :=
      rfl
    rw [h1, qsum_map_add (fun x => (countLT l x : ℚ))
      (fun x => ((countEQ l x : ℚ) + 1) / 2) l,
      qsum_map_div (fun x => (countEQ l x : ℚ) + 1) 2 l,
      qsum_map_add (fun x => (countEQ l x : ℚ)) (fun _ => 1) l,
      qsum_map_const 1 l, cast_list_sum (countLT l) l,
      cast_list_sum (countEQ l) l]
    ring
  rw [expand]
  have h2 : ((l.map (countLT l)).sum : ℚ)
      = ((l.length : ℚ) * l.length - (l.map (countEQ l)).sum) / 2 := by
    linarith [keyQ]
  rw [h2]
  ring

/-! Theorems: WilcoxonTest (C1) -/

/-- An average rank of a present value is at least 1 (so in particular the
indicator `ranks_signed > 0` in `v_statistic` is identically 1). -/
theorem one_le_avgRank (l : List ℚ) (x : ℚ) (hx : x ∈ l) : 1 ≤ avgRank l x := by
  have hmem : x ∈ l.filter (fun y => y = x) :=
    List.mem_filter.mpr ⟨hx, by simp⟩
  have h1 : 1 ≤ countEQ l x := by
    have := List.length_pos.mpr (List.ne_nil_of_mem hmem)
    simpa [countEQ] using this
  have h1q : (1 : ℚ) ≤ (countEQ l x : ℚ) := by exact_mod_cast h1
  have h0 : (0 : ℚ) ≤ (countLT l x : ℚ) := Nat.cast_nonneg _
  unfold avgRank
  linarith

theorem rank_indicator_all_one (l : List ℚ) :
    (rankdata l).map (fun r => if 0 < r then (1 : ℚ) else 0)
      = List.replicate l.length 1 := by
  have h1 : (rankdata l).map (fun r => if 0 < r then (1 : ℚ) else 0)
      = l.map (fun _ => (1 : ℚ)) := by
    rw [rankdata, List.map_map]
    apply List.map_congr_left
    intro x hx
    have := one_le_avgRank l x hx
    simp only [Function.comp]
    rw [if_pos (by linarith)]
  rw [h1, List.map_const']

theorem zipWith_mul_replicate_one (xs : List ℚ) (n : ℕ) (h : xs.length = n) :
    List.zipWith (fun a b => a * b) xs (List.replicate n 1) = xs := by
  subst h
  induction xs with
  | nil => rfl
  | cons a t ih => simp [List.replicate_succ, ih]

/-- The code's V statistic degenerates to the full rank sum `n(n+1)/2` on
every input: the indicator compares the *ranks* of the signed differences
against 0, and average ranks are always ≥ 1. -/
theorem v_statistic_eq_rank_sum (signed : List ℚ) :
    v_statistic signed
      = (signed.length : ℚ) * (signed.length + 1) / 2 := by
  unfold v_statistic
  have hlen : (signed.map (fun v => |v|)).length = signed.length :=
    List.length_map _ _
  have hr : (rankdata (signed.map (fun v => |v|))).length = signed.length := by
    rw [rankdata, List.length_map, hlen]
  rw [rank_indicator_all_one,
    zipWith_mul_replicate_one _ signed.length hr, rankdata_sum, hlen]

/-- C1 — code_bug evidence.  For the one-sample input `y1 = [-1, -2]`,
`mu = 0` no signed difference is positive, so the claimed V statistic is 0;
the code nevertheless returns 3 (the full rank sum of the absolute values),
because `np.where(ranks_signed > 0, 1, 0)` tests ranks, which are always
≥ 1, instead of the signed values. -/
theorem v_statistic_failing_input :
    v_statistic (wilcoxon_signed false [-1, -2] [] 0) = 3
      ∧ v_statistic_spec (wilcoxon_signed false [-1, -2] [] 0) = 0 := by
  constructor
  · rw [v_statistic_eq_rank_sum]
    norm_num [wilcoxon_signed]
  · norm_num [wilcoxon_signed, v_statistic_spec, rankdata, avgRank,
      countLT, countEQ, List.filter]

/-! Theorems: MannWhitney (C10) -/

/-- C10 — For every pair of sample vectors of sizes `n1` and `n2`, the
Mann-Whitney U statistic satisfies `U ≤ n1*n2/2`, since it is the minimum
of `U1` and `n1*n2 - U1`. -/
theorem mw_u_le_half (y1 y2 : List ℚ) :
    mw_u y1 y2 ≤ (y1.length : ℚ) * y2.length / 2 := by
  unfold mw_u
  rcases le_total (mw_u1 y1 y2) ((y1.length : ℚ) * y2.length - mw_u1 y1 y2)
    with h | h
  · rw [min_eq_left h]; linarith
  · rw [min_eq_right h]; linarith

/-! Theorems: tie_correction (C7) -/

/-- C7 — For every rank vector of length `N ≤ 1`, the tie-correction
utility produces no numeric value, because the divisor `N³ - N` is zero
(the 0/0 division is undefined; in the numpy source it surfaces as NaN
rather than a valid correction factor). -/
theorem tie_correction_short (l : List ℚ) (h : l.length ≤ 1) :
    tie_correction l = none := by
  have h0 : ((l.length : ℚ)) ^ 3 - (l.length : ℚ) = 0 := by
    rcases (by omega : l.length = 0 ∨ l.length = 1) with h1 | h1 <;>
      rw [h1] <;> norm_num
  simp [tie_correction, h0]

/-- Witness for C7 at the concrete single-entry rank vector `[5]`. -/
theorem tie_correction_short_witness : tie_correction [(5 : ℚ)] = none :=
  tie_correction_short [(5 : ℚ)] (by simp)

/-! Theorems: BinomialTest p-value (C3) -/

theorem list_range_sum (m : ℕ) (g : ℕ → ℚ) :
    ((List.range m).map g).sum = ∑ k in Finset.range m, g k := by
  induction m with
  | zero => simp
  | succ m ih =>
    rw [List.range_succ, List.map_append, List.sum_append,
      Finset.sum_range_succ, ih]
    simp

theorem sum_Ioc_list (x n : ℕ) (g : ℕ → ℚ) :
    ∑ k in Finset.Ioc x n, g k
      = ((List.range' (x + 1) (n - x)).map g).sum := by
  rw [Nat.Ioc_eq_range']
  rfl

theorem list_filter_map_sum (l : List ℕ) (f : ℕ → ℚ) (y : ℚ) :
    ((l.map f).filter (fun v => v ≤ y)).sum
      = (l.map (fun k => if f k ≤ y then f k else 0)).sum := by
  induction l with
  | nil => rfl
  | cons a t ih => by_cases h : f a ≤ y <;> simp [List.filter_cons, h, ih]

/-- C3 — For every BinomialTest input, the computed p-value with
`alternative = two-sided` equals the pmf sum over `k = 0..x` plus the sum
over `k = x+1..n` of those pmf values `≤` the pmf at `x`; with
`alternative = greater` or `lesser` it equals only the `k = 0..x` tail sum.
(Proved for all `n`, `x`, `p`, which covers the valid range
`0 ≤ x ≤ n`, `0 ≤ p ≤ 1`.) -/
theorem binomial_p_value_eq (n x : ℕ) (p : ℚ) :
    binomial_p_value n x p Alt.two_sided
      = (∑ k in Finset.range (x + 1), binom_pmf n k p)
        + ∑ k in (Finset.Ioc x n).filter
            (fun k => binom_pmf n k p ≤ binom_pmf n x p), binom_pmf n k p
    ∧ binomial_p_value n x p Alt.greater
      = ∑ k in Finset.range (x + 1), binom_pmf n k p
    ∧ binomial_p_value n x p Alt.less
      = ∑ k in Finset.range (x + 1), binom_pmf n k p := by
  have hpmf : (fun k => (n.choose k : ℚ) * p ^ k * (1 - p) ^ (n - k))
      = fun k => binom_pmf n k p := rfl
  refine ⟨?_, ?_, ?_⟩
  · show ((List.range (x + 1)).map
        (fun k => (n.choose k : ℚ) * p ^ k * (1 - p) ^ (n - k))).sum
      + ((((List.range' (x + 1) (n - x)).map
          (fun k => (n.choose k : ℚ) * p ^ k * (1 - p) ^ (n - k))).filter
        (fun v => v ≤ (n.choose x : ℚ) * p ^ x * (1 - p) ^ (n - x))).sum)
      = _
    rw [hpmf, list_range_sum, Finset.sum_filter, sum_Ioc_list,
      list_filter_map_sum]
    rfl
  · show ((List.range (x + 1)).map
        (fun k => (n.choose k : ℚ) * p ^ k * (1 - p) ^ (n - k))).sum = _
    rw [hpmf, list_range_sum]
  · show ((List.range (x + 1)).map
        (fun k => (n.choose k : ℚ) * p ^ k * (1 - p) ^ (n - k))).sum = _
    rw [hpmf, list_range_sum]

/-! Theorems: tTest p-value range (C4) -/

theorem wrap_step_mem (p1 : ℚ) (h0 : 0 ≤ p1) (hp2 : p1 ≤ 2) :
    0 ≤ (if (if 1 < p1 ∧ p1 < 2 then 2 - p1 else p1) = 2 then machineEps
          else (if 1 < p1 ∧ p1 < 2 then 2 - p1 else p1))
    ∧ (if (if 1 < p1 ∧ p1 < 2 then 2 - p1 else p1) = 2 then machineEps
        else (if 1 < p1 ∧ p1 < 2 then 2 - p1 else p1)) ≤ 1 := by
  have heps0 : (0 : ℚ) ≤ machineEps := by norm_num [machineEps]
  have heps1 : machineEps ≤ 1 := by norm_num [machineEps]
  by_cases h1 : 1 < p1 ∧ p1 < 2
  · rw [if_pos h1]
    have hne : ¬(2 - p1 = 2) := fun he => by linarith [h1.1]
    rw [if_neg hne]
    constructor <;> linarith [h1.1, h1.2]
  · rw [if_neg h1]
    by_cases h2 : p1 = 2
    · rw [if_pos h2]; exact ⟨heps0, heps1⟩
    · rw [if_neg h2]
      push_neg at h1
      rcases le_or_lt p1 1 with hle | hlt
      · exact ⟨h0, hle⟩
      · exact absurd (le_antisymm hp2 (h1 hlt)) h2

/-- C4 — For every tTest construction the returned p-value lies in
`[0, 1]`: starting from a CDF value `c ∈ [0, 1]`, doubling (two-sided) or
complementing (greater) followed by the `2 - p` wrap on `(1, 2)` and the
machine-epsilon substitution at exactly `2.0` always lands in `[0, 1]`. -/
theorem tTest_pvalue_mem (c : ℚ) (a : Alt) (h0 : 0 ≤ c) (h1 : c ≤ 1) :
    0 ≤ tTest_pvalue c a ∧ tTest_pvalue c a ≤ 1 := by
  cases a
  · exact wrap_step_mem (c * 2) (by linarith) (by linarith)
  · exact wrap_step_mem (1 - c) (by linarith) (by linarith)
  · exact wrap_step_mem c (by linarith) (by linarith)

/-- Witness for C4 at the concrete CDF value `9/10`, two-sided. -/
theorem tTest_pvalue_mem_witness :
    (0 : ℚ) ≤ 9 / 10 ∧ (9 / 10 : ℚ) ≤ 1
      ∧ (0 ≤ tTest_pvalue (9 / 10) Alt.two_sided
        ∧ tTest_pvalue (9 / 10) Alt.two_sided ≤ 1) :=
  ⟨by norm_num, by norm_num,
    tTest_pvalue_mem (9 / 10) Alt.two_sided (by norm_num) (by norm_num)⟩

/-! Theorems: paired tTest of a vector against itself (C5) -/

theorem zipWith_sub_self (y : List ℚ) :
    List.zipWith (fun a b => a - b) y y = List.replicate y.length 0 := by
  induction y with
  | nil => rfl
  | cons a t ih => simp [List.replicate_succ, ih]

theorem sample_variance_replicate_zero (m : ℕ) :
    sample_variance (List.replicate m (0 : ℚ)) = 0 := by
  unfold sample_variance sample_mean
  simp [List.map_replicate, List.sum_replicate]

/-- C5 — code_bug evidence.  For every nonempty `y`, the paired t-test of
`y` against itself produces differences that are all zero, hence variance
0, and the statistic `(0 - 0)/√(0/n)` divides zero by zero: the code
returns NaN (and a NaN p-value), not the claimed statistic 0 with p-value
1. -/
theorem tTest_paired_identical (y : List ℚ) (h : y ≠ []) :
    tTest_paired_statistic y y = none := by
  have hd : tTest_paired_diffs y y = some (List.replicate y.length 0) := by
    unfold tTest_paired_diffs
    rw [if_pos rfl, zipWith_sub_self]
  have hv : sample_variance (List.replicate y.length (0 : ℚ))
      / (y.length : ℚ) = 0 := by
    rw [sample_variance_replicate_zero]
    simp
  have hs : sqrtQ 0 = some 0 := by
    unfold sqrtQ
    norm_num
  simp [tTest_paired_statistic, hd, hv, hs]

/-- Witness for C5 at the concrete vector `[1, 2, 3]`. -/
theorem tTest_paired_identical_witness :
    ([1, 2, 3] : List ℚ) ≠ []
      ∧ tTest_paired_statistic [1, 2, 3] [1, 2, 3] = none :=
  ⟨by simp, tTest_paired_identical [1, 2, 3] (by simp)⟩

/-! Theorems: ChiSquareTest default expected vector (C6) -/

theorem chisq_int_12_eval : chisq_expected_default_int [1, 2] = [1, 1] := by
  have hm : mean_int [1, 2] = 3 / 2 := by norm_num [mean_int]
  have ht : truncQ (3 / 2) = 1 := by
    rw [truncQ, if_pos (by norm_num)]
    norm_num [Int.floor_eq_iff]
  unfold chisq_expected_default_int
  rw [hm, ht]
  rfl

/-- C6 — counterexample.  For the integer observed vector `[1, 2]` the
default expected vector is `[1, 1]`, whose cells do not equal the
arithmetic mean `3/2`: `np.full_like` truncates the mean to the integer
dtype of the observed array. -/
theorem chisq_expected_default_counterexample :
    chisq_expected_default_int [1, 2] = [1, 1]
      ∧ mean_int [1, 2] = 3 / 2
      ∧ ((1 : ℚ) ≠ 3 / 2) :=
  ⟨chisq_int_12_eval, by norm_num [mean_int], by norm_num⟩

/-- C6 — amended.  Constructing `ChiSquareTest` with the expected argument
omitted produces an expected vector of the same length as `observed` in
which every cell equals the arithmetic mean of `observed` *cast to the
dtype of `observed`*: the mean itself for a float-dtyped observed vector,
the mean truncated toward zero for an integer-dtyped one. -/
theorem chisq_expected_default_cells (lz : List ℤ) (e : ℤ)
    (he : e ∈ chisq_expected_default_int lz) (lq : List ℚ) (f : ℚ)
    (hf : f ∈ chisq_expected_default_float lq) :
    (chisq_expected_default_int lz).length = lz.length
    ∧ (chisq_expected_default_float lq).length = lq.length
    ∧ e = truncQ (mean_int lz)
    ∧ f = sample_mean lq :=
  ⟨List.length_replicate _ _, List.length_replicate _ _,
    List.eq_of_mem_replicate he, List.eq_of_mem_replicate hf⟩

/-- Witness for the amended C6 at `observed = [1, 2]` (integer dtype, cell
`1`) and `observed = [1, 2]` (float dtype, cell `3/2`). -/
theorem chisq_expected_default_cells_witness :
    (1 : ℤ) ∈ chisq_expected_default_int [1, 2]
      ∧ (3 / 2 : ℚ) ∈ chisq_expected_default_float [1, 2]
      ∧ ((1 : ℤ) = truncQ (mean_int [1, 2])
          ∧ (3 / 2 : ℚ) = sample_mean [1, 2]) := by
  have he : (1 : ℤ) ∈ chisq_expected_default_int [1, 2] := by
    rw [chisq_int_12_eval]
    simp
  have hf : (3 / 2 : ℚ) ∈ chisq_expected_default_float [1, 2] := by
    norm_num [chisq_expected_default_float, sample_mean, List.mem_replicate]
  exact ⟨he, hf,
    (chisq_expected_default_cells [1, 2] 1 he [1, 2] (3 / 2) hf).2.2⟩

/-! Theorems: Wilson score interval bounds (C8) and independence of `x`
(C9) -/

theorem le_of_sq_le_sq (a b : ℚ) (hb : 0 ≤ b) (h : a ^ 2 ≤ b ^ 2) :
    a ≤ b := by
  by_contra hcon
  push_neg at hcon
  have ha : 0 < a := lt_of_le_of_lt hb hcon
  nlinarith [mul_lt_mul_of_pos_right hcon ha,
    mul_le_mul_of_nonneg_left hcon.le hb]

/-- C8 — counterexample.  The construction
`BinomialTest(n=1, x=0, p=0, alpha ≈ 0.2005, continuity=True)` passes every
validation check, yet its Wilson bounds do not lie in `[0, 1]`: with
`z = norm.ppf(1 - alpha/2) = 32/25` the continuity radicand
`z² - 1/n + 4npq + (4p - 2) + 1 = (32/25)² - 2 < 0`, so `np.sqrt` returns
NaN and both clipped bounds are NaN.  (Every `z` in `(0, √2)` arises from a
valid `alpha`, since `norm.ppf(1 - alpha/2)` is onto `(0, ∞)` for
`alpha ∈ (0, 1)`.) -/
theorem wilson_interval_nan_counterexample :
    wilson_CC_radicand 1 0 (32 / 25) < 0
      ∧ wilson_score_interval_chk 1 0 (32 / 25) true 0 = none := by
  constructor <;>
    norm_num [wilson_CC_radicand, wilson_score_interval_chk]

/-- C8 — amended.  For every valid BinomialTest construction (`n ≥ 1`,
`0 ≤ p ≤ 1`, `z = norm.ppf(1 - α/2) ≥ 0`) *whose selected variant's
radicand is nonnegative* — that is, whenever `np.sqrt` returns a number
`s ≥ 0` with `s² = radicand` rather than NaN; automatic for the
non-continuity variant, and true for the continuity variant at standard
alphas (e.g. whenever `z² ≥ 2`) — the Wilson score interval's lower and
upper bounds, regardless of the continuity flag, both lie within
`[0, 1]`. -/
theorem wilson_interval_bounds (n : ℕ) (p z s : ℚ) (continuity : Bool)
    (hn : 1 ≤ n) (hp0 : 0 ≤ p) (hp1 : p ≤ 1) (hz : 0 ≤ z) (hs : 0 ≤ s)
    (hsq : s ^ 2 = if continuity
      then z ^ 2 - 1 / (n : ℚ) + 4 * (n : ℚ) * p * (1 - p) + (4 * p - 2) + 1
      else p * (1 - p) / (n : ℚ) + z ^ 2 / (4 * (n : ℚ) ^ 2)) :
    (0 ≤ (wilson_score_interval n p z continuity s).lower_bound
      ∧ (wilson_score_interval n p z continuity s).lower_bound ≤ 1)
    ∧ (0 ≤ (wilson_score_interval n p z continuity s).upper_bound
      ∧ (wilson_score_interval n p z continuity s).upper_bound ≤ 1) := by
  have hNpos : (0 : ℚ) < (n : ℚ) := by
    have : (1 : ℚ) ≤ (n : ℚ) := by exact_mod_cast hn
    linarith
  have hN0 : ((n : ℚ)) ≠ 0 := ne_of_gt hNpos
  have hNz : (0 : ℚ) < (n : ℚ) + z ^ 2 := by positivity
  cases continuity with
  | true =>
    simp only [wilson_score_interval, if_pos, wilson_CC_lower,
      wilson_CC_upper]
    have hden : (0 : ℚ) < 2 * ((n : ℚ) + z ^ 2) := by positivity
    have hzs : 0 ≤ z * s := mul_nonneg hz hs
    have hnum_u : 0 ≤ 2 * (n : ℚ) * p + z ^ 2 + z * s := by positivity
    have hlraw : (2 * (n : ℚ) * p + z ^ 2 - z * s) / (2 * ((n : ℚ) + z ^ 2))
        ≤ 1 := by
      rw [div_le_one hden]
      nlinarith [mul_nonneg hNpos.le (sub_nonneg.mpr hp1)]
    refine ⟨⟨le_max_left 0 _, max_le (by norm_num) hlraw⟩,
      ⟨le_min (by norm_num) (div_nonneg hnum_u hden.le), min_le_left 1 _⟩⟩
  | false =>
    simp only [wilson_score_interval, if_neg, Bool.false_eq_true,
      not_false_iff, wilson_noCC_lower, wilson_noCC_upper]
    have hsq0 : s ^ 2
        = p * (1 - p) / (n : ℚ) + z ^ 2 / (4 * (n : ℚ) ^ 2) := by
      simpa using hsq
    have hsq' : s ^ 2 * (4 * (n : ℚ) ^ 2)
        = 4 * p * (1 - p) * (n : ℚ) + z ^ 2 := by
      rw [hsq0]
      field_simp
      ring
    have h5 : (z * s * (n : ℚ)) ^ 2 * 4
        = z ^ 2 * (4 * p * (1 - p) * (n : ℚ) + z ^ 2) := by
      have hra : (z * s * (n : ℚ)) ^ 2 * 4
          = z ^ 2 * (s ^ 2 * (4 * (n : ℚ) ^ 2)) := by ring
      rw [hra, hsq']
    have hzsN : 0 ≤ z * s * (n : ℚ) :=
      mul_nonneg (mul_nonneg hz hs) hNpos.le
    have key1 : z * s * (n : ℚ) ≤ p * (n : ℚ) + z ^ 2 / 2 := by
      apply le_of_sq_le_sq _ _
        (add_nonneg (mul_nonneg hp0 hNpos.le) (by positivity))
      nlinarith [h5, sq_nonneg (p * (n : ℚ)),
        mul_nonneg (mul_nonneg (sq_nonneg p) hNpos.le) (sq_nonneg z)]
    have key2 : z * s * (n : ℚ) ≤ (1 - p) * (n : ℚ) + z ^ 2 / 2 := by
      apply le_of_sq_le_sq _ _
        (add_nonneg (mul_nonneg (by linarith) hNpos.le) (by positivity))
      nlinarith [h5, sq_nonneg ((1 - p) * (n : ℚ)),
        mul_nonneg (mul_nonneg (sq_nonneg (1 - p)) hNpos.le) (sq_nonneg z)]
    have hA0 : (1 : ℚ) + z ^ 2 / (n : ℚ) ≠ 0 := by positivity
    have hL : wilson_point n p z - (z / (1 + z ^ 2 / (n : ℚ))) * s
        = (p * (n : ℚ) + z ^ 2 / 2 - z * s * (n : ℚ)) / ((n : ℚ) + z ^ 2) := by
      unfold wilson_point
      field_simp
      ring
    have hU : wilson_point n p z + (z / (1 + z ^ 2 / (n : ℚ))) * s
        = (p * (n : ℚ) + z ^ 2 / 2 + z * s * (n : ℚ)) / ((n : ℚ) + z ^ 2) := by
      unfold wilson_point
      field_simp
      ring
    rw [hL, hU]
    have hpN : 0 ≤ p * (n : ℚ) := mul_nonneg hp0 hNpos.le
    constructor
    · constructor
      · exact div_nonneg (by linarith) hNz.le
      · rw [div_le_one hNz]
        linarith
    · constructor
      · exact div_nonneg (by linarith) hNz.le
      · rw [div_le_one hNz]
        linarith

/-- Witness for C8 at `n = 1`, `p = 1/2`, `z = 0`, continuity on, `s = 1`
(indeed `1² = 0 - 1 + 4·(1/2)·(1/2) + (2 - 2) + 1`). -/
theorem wilson_interval_bounds_witness :
    ((1 : ℕ) ≤ 1 ∧ (0 : ℚ) ≤ 1 / 2 ∧ (1 / 2 : ℚ) ≤ 1 ∧ (0 : ℚ) ≤ 0
        ∧ (0 : ℚ) ≤ 1
        ∧ (1 : ℚ) ^ 2 = (if true
            then (0 : ℚ) ^ 2 - 1 / ((1 : ℕ) : ℚ)
              + 4 * ((1 : ℕ) : ℚ) * (1 / 2) * (1 - 1 / 2)
              + (4 * (1 / 2) - 2) + 1
            else (1 / 2) * (1 - 1 / 2) / ((1 : ℕ) : ℚ)
              + (0 : ℚ) ^ 2 / (4 * ((1 : ℕ) : ℚ) ^ 2)))
      ∧ ((0 ≤ (wilson_score_interval 1 (1 / 2) 0 true 1).lower_bound
          ∧ (wilson_score_interval 1 (1 / 2) 0 true 1).lower_bound ≤ 1)
        ∧ (0 ≤ (wilson_score_interval 1 (1 / 2) 0 true 1).upper_bound
          ∧ (wilson_score_interval 1 (1 / 2) 0 true 1).upper_bound ≤ 1)) :=
  ⟨⟨le_refl 1, by norm_num, by norm_num, le_refl 0, by norm_num,
      by norm_num⟩,
    wilson_interval_bounds 1 (1 / 2) 0 1 true (le_refl 1) (by norm_num)
      (by norm_num) (le_refl 0) (by norm_num) (by norm_num)⟩

/-- C9 — For any two valid BinomialTest constructions that share `n`, `p`,
`alpha` (hence `z`) and the continuity flag but differ in the success count
`x`, the Wilson score interval (point estimate, lower bound and upper
bound) is identical: it is computed from the null probability `p` and never
reads `x`. -/
theorem wilson_independent_of_x (n x1 x2 : ℕ) (p z s : ℚ) (a : Alt)
    (c : Bool) (h1 : x1 ≤ n) (h2 : x2 ≤ n) (hp : p ≤ 1) :
    (mkBinomialTest n x1 p a z s c).map BinomialTestResult.wilson
      = (mkBinomialTest n x2 p a z s c).map BinomialTestResult.wilson := by
  unfold mkBinomialTest
  rw [if_neg (not_or.mpr ⟨not_lt.mpr h1, not_lt.mpr hp⟩),
    if_neg (not_or.mpr ⟨not_lt.mpr h2, not_lt.mpr hp⟩)]
  rfl

/-- Witness for C9: `n = 3` with `x1 = 1` and `x2 = 2` (which give
different p-values) share the same Wilson interval. -/
theorem wilson_independent_of_x_witness :
    ((1 : ℕ) ≤ 3 ∧ (2 : ℕ) ≤ 3 ∧ (1 / 2 : ℚ) ≤ 1)
      ∧ (mkBinomialTest 3 1 (1 / 2) Alt.two_sided 2 7 false).map
          BinomialTestResult.wilson
        = (mkBinomialTest 3 2 (1 / 2) Alt.two_sided 2 7 false).map
          BinomialTestResult.wilson :=
  ⟨⟨by norm_num, by norm_num, by norm_num⟩,
    wilson_independent_of_x 3 1 2 (1 / 2) 2 7 Alt.two_sided false
      (by norm_num) (by norm_num) (by norm_num)⟩

end Hypothetical
